import Mathlib

/-!
Shallow embedding of the core of the `rkyv` zero-copy archival framework
(`src/rkyv/src/lib.rs`) and proofs of the specification's claims about it.

Modelling conventions:
* Bytes are natural numbers; the core only ever inspects lengths and the
  constant `0` used for padding.
* A Rust `&mut self` method returning `Result<(), E>` is modelled
  state-passing; when the method's error path returns before any mutation,
  the model returns the receiver unchanged together with the error.
* The generic `Write` trait becomes a record of a position observer and a
  fallible write on an abstract state type; the laws the trait's contract
  imposes on implementors are separate `Prop`s.
* Machine integers are `Nat`/`Int`; the `as i32` cast is explicit
  two's-complement truncation.
-/

namespace Rkyv

variable {σ ε σw : Type} {T Ar R : Type}

/-- Bytes are modelled as natural numbers. -/
abbrev Byte := Nat

/-- The byte-sink contract (`trait Write`): a position observer and a
fallible write.  `σ` is the state of the `&mut self` receiver; a result of
`.error e` models the method returning `Err(e)` (both concrete sinks leave
their observable position unchanged on that path, which the concrete models
below express explicitly). -/
structure Write (σ ε : Type) where
  pos : σ → Nat
  write : σ → List Byte → Except ε σ

/-- The contract on `Write::write` stated in the spec: a successful write
advances the position by exactly the length of the slice. -/
def Write.WriteAdvances (S : Write σ ε) : Prop :=
  ∀ s bytes s', S.write s bytes = .ok s' → S.pos s' = S.pos s + bytes.length

/-- A sink whose writes always succeed. -/
def Write.WriteTotal (S : Write σ ε) : Prop :=
  ∀ s bytes, ∃ s', S.write s bytes = .ok s'

/-- `ZEROES[0..len]` from `WriteExt::align`: a run of `len` zero bytes. -/
def zeroes (len : Nat) : List Byte := List.replicate len 0

/-- The `loop` inside `WriteExt::align`: repeatedly write
`min(ZEROES_LEN, padding)` zero bytes and decrease `padding` until it
reaches zero, propagating the first write error. -/
def padLoop (S : Write σ ε) (s : σ) (padding : Nat) : Except ε σ :=
  match S.write s (zeroes (min 16 padding)) with
  | .error e => .error e
  | .ok s' =>
    if h : padding - min 16 padding = 0 then .ok s'
    else padLoop S s' (padding - min 16 padding)
termination_by padding
decreasing_by omega

/-- `WriteExt::align`: compute `offset = pos & (align - 1)`; when nonzero,
write `align - offset` zero bytes through the padding loop; return the
resulting position. -/
def align (S : Write σ ε) (s : σ) (a : Nat) : Except ε (Nat × σ) :=
  let offset := S.pos s &&& (a - 1)
  if offset ≠ 0 then
    match padLoop S s (a - offset) with
    | .error e => .error e
    | .ok s' => .ok (S.pos s', s')
  else
    .ok (S.pos s, s)

/-- The data of one `impl Archive for T` instantiation as consumed by the
generic `WriteExt` methods: the archived header's size and alignment, its
byte image, the resolver's `resolve`, and the stage-1 `T::archive` body. -/
structure ArchType (σ ε T Ar R : Type) where
  sizeOf : Nat
  alignOf : Nat
  toBytes : Ar → List Byte
  resolve : R → Nat → T → Ar
  archiveStage1 : T → σ → Except ε (R × σ)

/-- `WriteExt::resolve_aligned`: read the current position, run the
resolver there, and emit the header's `size_of::<Archived>()` bytes,
returning the header position. -/
def resolve_aligned (S : Write σ ε) (A : ArchType σ ε T Ar R) (v : T) (r : R) (s : σ) :
    Except ε (Nat × σ) :=
  let pos := S.pos s
  match S.write s (A.toBytes (A.resolve r pos v)) with
  | .error e => .error e
  | .ok s' => .ok (pos, s')

/-- `WriteExt::archive`: run stage 1, align for the archived type, then
emit the resolved header. -/
def archive (S : Write σ ε) (A : ArchType σ ε T Ar R) (v : T) (s : σ) :
    Except ε (Nat × σ) :=
  match A.archiveStage1 v s with
  | .error e => .error e
  | .ok (r, s1) =>
    match align S s1 A.alignOf with
    | .error e => .error e
    | .ok (_, s2) => resolve_aligned S A v r s2

/-- Truncating cast of an integer to `i32` (Rust's `as i32`):
two's-complement wraparound into `[-2^31, 2^31)`. -/
def i32ofInt (x : Int) : Int := (x + 2 ^ 31) % 2 ^ 32 - 2 ^ 31

/-- `RelPtr<T>`: a relative pointer holding a signed 32-bit offset. -/
structure RelPtr where
  offset : Int
  deriving DecidableEq, Repr

/-- `RelPtr::new(from, to)`: store `(to as isize - from as isize) as i32`.
The subtraction is exact over `Int` and the cast truncates to 32 bits,
which agrees with the 64-bit `isize` computation modulo `2^32`. -/
def RelPtr.new (src dst : Nat) : RelPtr :=
  ⟨i32ofInt ((dst : Int) - (src : Int))⟩

/-- `RelPtr::as_ptr`: offset the pointer's own address by `offset` bytes.
Addresses are modelled as integers. -/
def RelPtr.as_ptr (p : RelPtr) (selfAddr : Int) : Int :=
  selfAddr + p.offset

/-- `impl Resolve<T> for SelfResolver`: `resolve(self, _pos, value)` returns
`*value`, a copy of the original value; the position is unused. -/
def SelfResolver.resolve (_pos : Nat) (v : T) : T := v

/-- `impl Resolve<T> for usize`: `resolve(self, pos, _value)` returns
`RelPtr::new(pos, self)`; the value is unused. -/
def usizeResolve (stored : Nat) (pos : Nat) (_v : T) : RelPtr :=
  RelPtr.new pos stored

/-- The blanket `impl ArchiveRef for T` stage 1:
`Ok(writer.archive(self)?)`. -/
def archive_ref_stage1 (S : Write σ ε) (A : ArchType σ ε T Ar R) (v : T) (s : σ) :
    Except ε (Nat × σ) :=
  match archive S A v s with
  | .error e => .error e
  | .ok (pos, s') => .ok (pos, s')

/-- Error type of the fixed-capacity buffer sink. -/
inductive ArchiveBufferError where
  | Overflow
  deriving DecidableEq, Repr

/-- `ArchiveBuffer`: a byte buffer of fixed capacity (`inner.length`) and a
current position. -/
structure ArchiveBuffer where
  inner : List Byte
  pos : Nat
  deriving DecidableEq, Repr

/-- `ArchiveBuffer::write`: check `pos + len` against the capacity; on
overflow return the error before any mutation (the receiver is returned
unchanged); otherwise copy the bytes to `inner[pos..end_pos]`
(`ptr::copy_nonoverlapping`) and advance `pos` to `end_pos`. -/
def ArchiveBuffer.write (b : ArchiveBuffer) (bytes : List Byte) :
    Except ArchiveBufferError Unit × ArchiveBuffer :=
  let end_pos := b.pos + bytes.length
  if end_pos > b.inner.length then
    (.error ArchiveBufferError.Overflow, b)
  else
    (.ok (), ⟨b.inner.take b.pos ++ bytes ++ b.inner.drop end_pos, end_pos⟩)

/-- `ArchiveBuffer` as an instance of the sink contract. -/
def bufferSink : Write ArchiveBuffer ArchiveBufferError where
  pos := ArchiveBuffer.pos
  write := fun b bytes =>
    match b.write bytes with
    | (.error e, _) => .error e
    | (.ok (), b') => .ok b'

/-- The wrapped `io::Write` stream of `ArchiveWriter`: a call reports how
many bytes it accepted (possibly fewer than offered) or an error, together
with the stream's successor state. -/
structure ByteStream (σw ε : Type) where
  write : σw → List Byte → Except ε Nat × σw

/-- `ArchiveWriter`: an adapter over a byte stream, tracking a position. -/
structure ArchiveWriter (σw : Type) where
  inner : σw
  pos : Nat
  deriving DecidableEq, Repr

/-- `ArchiveWriter::write`: `self.pos += self.inner.write(bytes)?;` — on
success the position advances by however many bytes the stream reports as
accepted; on error the `?` returns before the `+=`, leaving `pos`
unchanged. -/
def ArchiveWriter.write (W : ByteStream σw ε) (s : ArchiveWriter σw) (bytes : List Byte) :
    Except ε Unit × ArchiveWriter σw :=
  match W.write s.inner bytes with
  | (.error e, inner') => (.error e, ⟨inner', s.pos⟩)
  | (.ok n, inner') => (.ok (), ⟨inner', s.pos + n⟩)

/-- Instrumentation of a sink: alongside the state, record the list of
byte slices passed to `write`.  Position and success are unchanged. -/
def traced (S : Write σ ε) : Write (σ × List (List Byte)) ε where
  pos := fun p => S.pos p.1
  write := fun p bytes =>
    match S.write p.1 bytes with
    | .error e => .error e
    | .ok s' => .ok (s', p.2 ++ [bytes])

/-- An always-accepting sink whose state is the list of emitted bytes. -/
def listSink : Write (List Byte) Empty where
  pos := List.length
  write := fun s bytes => .ok (s ++ bytes)

/-- A byte stream that accepts at most one byte per call (a legal
`io::Write` implementor exhibiting short writes). -/
def shortStream : ByteStream Unit Empty where
  write := fun u bytes => (.ok (min 1 bytes.length), u)

/-- A byte stream that always accepts every byte offered. -/
def fullStream : ByteStream Unit Empty where
  write := fun u bytes => (.ok bytes.length, u)

/-- A concrete `Archive` instantiation used to exercise the generic
machinery: a unit value whose archived header is the two bytes `[7, 7]`
at alignment 1, with a stage 1 that writes nothing. -/
def unitArch : ArchType (List Byte) Empty Unit Unit Unit where
  sizeOf := 2
  alignOf := 1
  toBytes := fun _ => [7, 7]
  resolve := fun _ _ _ => ()
  archiveStage1 := fun _ s => .ok ((), s)

@[simp]
theorem zeroes_length (n : Nat) : (zeroes n).length = n := by
  simp [zeroes]

theorem listSink_advances : listSink.WriteAdvances := by
  intro s bytes s' h
  simp only [listSink, Except.ok.injEq] at h
  subst h
  simp [listSink]

theorem listSink_total : listSink.WriteTotal := by
  intro s bytes
  exact ⟨s ++ bytes, rfl⟩

theorem traced_advances (S : Write σ ε) (h : S.WriteAdvances) :
    (traced S).WriteAdvances := by
  rintro ⟨s, t⟩ bytes ⟨s', t'⟩ hw
  simp only [traced] at hw ⊢
  cases hww : S.write s bytes with
  | error e => rw [hww] at hw; cases hw
  | ok s0 =>
    rw [hww] at hw
    simp only [Except.ok.injEq, Prod.mk.injEq] at hw
    obtain ⟨h1, h2⟩ := hw
    subst h1
    exact h s bytes s0 hww

theorem traced_total (S : Write σ ε) (h : S.WriteTotal) : (traced S).WriteTotal := by
  rintro ⟨s, t⟩ bytes
  obtain ⟨s', hs'⟩ := h s bytes
  exact ⟨(s', t ++ [bytes]), by simp [traced, hs']⟩

theorem land_pow2_mod (p k : Nat) : p &&& (2 ^ k - 1) = p % 2 ^ k :=
  Nat.and_pow_two_sub_one_eq_mod p k

theorem padLoop_ok_pos (S : Write σ ε) (hadv : S.WriteAdvances) :
    ∀ p s s', padLoop S s p = .ok s' → S.pos s' = S.pos s + p := by
  intro p
  induction p using Nat.strong_induction_on with
  | _ p ih =>
    intro s s' hrun
    rw [padLoop] at hrun
    split at hrun
    next e heq => simp at hrun
    next s1 heq =>
      have h1 := hadv s (zeroes (min 16 p)) s1 heq
      simp only [zeroes_length] at h1
      split at hrun
      next hz =>
        cases hrun
        omega
      next hz =>
        have h2 := ih (p - min 16 p) (by omega) s1 s' hrun
        omega

theorem padLoop_error_write (S : Write σ ε) :
    ∀ p s e, padLoop S s p = .error e → ∃ s0 n, S.write s0 (zeroes n) = .error e := by
  intro p
  induction p using Nat.strong_induction_on with
  | _ p ih =>
    intro s e hrun
    rw [padLoop] at hrun
    split at hrun
    next e0 heq =>
      cases hrun
      exact ⟨s, min 16 p, heq⟩
    next s1 heq =>
      split at hrun
      next hz => simp at hrun
      next hz => exact ih (p - min 16 p) (by omega) s1 e hrun

theorem padLoop_total (S : Write σ ε) (htot : S.WriteTotal) :
    ∀ p s, ∃ s', padLoop S s p = .ok s' := by
  intro p
  induction p using Nat.strong_induction_on with
  | _ p ih =>
    intro s
    obtain ⟨s1, hw⟩ := htot s (zeroes (min 16 p))
    by_cases hz : p - min 16 p = 0
    · exact ⟨s1, by rw [padLoop, hw]; simp [hz]⟩
    · obtain ⟨s', hs'⟩ := ih (p - min 16 p) (by omega) s1
      exact ⟨s', by rw [padLoop, hw]; simp [hz, hs']⟩

theorem padLoop_traced_trace (S : Write σ ε) :
    ∀ p s t s' t', 1 ≤ p → padLoop (traced S) (s, t) p = .ok (s', t') →
      ∃ u, t' = t ++ u ∧ u.length = (p + 15) / 16 ∧
        ∀ l ∈ u, ∃ n, l = zeroes n ∧ 1 ≤ n ∧ n ≤ 16 := by
  intro p
  induction p using Nat.strong_induction_on with
  | _ p ih =>
    intro s t s' t' hp hrun
    rw [padLoop] at hrun
    cases hw : S.write s (zeroes (min 16 p)) with
    | error e =>
      have : (traced S).write (s, t) (zeroes (min 16 p)) = .error e := by
        simp [traced, hw]
      rw [this] at hrun
      simp at hrun
    | ok s1 =>
      have hwt : (traced S).write (s, t) (zeroes (min 16 p)) =
          .ok (s1, t ++ [zeroes (min 16 p)]) := by
        simp [traced, hw]
      rw [hwt] at hrun
      simp only at hrun
      split at hrun
      next hz =>
        cases hrun
        refine ⟨[zeroes (min 16 p)], rfl, ?_, ?_⟩
        · simp only [List.length_singleton]
          omega
        · intro l hl
          simp only [List.mem_singleton] at hl
          subst hl
          exact ⟨min 16 p, rfl, by omega, by omega⟩
      next hz =>
        have h16 : min 16 p = 16 := by omega
        rw [h16] at hrun
        obtain ⟨u, hu1, hu2, hu3⟩ :=
          ih (p - 16) (by omega) s1 (t ++ [zeroes 16]) s' t' (by omega)
            (by rw [← h16] at hrun ⊢; rw [h16] at hrun ⊢; exact hrun)
        refine ⟨zeroes 16 :: u, ?_, ?_, ?_⟩
        · rw [hu1]; simp
        · simp only [List.length_cons, hu2]
          omega
        · intro l hl
          rcases List.mem_cons.mp hl with h | h
          · exact h ▸ ⟨16, rfl, by omega, by omega⟩
          · exact hu3 l h

theorem align_ok (S : Write σ ε) (a : Nat) (s : σ) (r : Nat) (s' : σ)
    (hadv : S.WriteAdvances) (hpow : ∃ k, a = 2 ^ k)
    (h : align S s a = .ok (r, s')) :
    r = S.pos s' ∧ S.pos s' % a = 0 ∧
      (S.pos s % a = 0 → s' = s ∧ r = S.pos s) := by
  obtain ⟨k, rfl⟩ := hpow
  have hm0 : 0 < 2 ^ k := Nat.two_pow_pos k
  simp only [align, land_pow2_mod] at h
  by_cases hm : S.pos s % 2 ^ k = 0
  · rw [if_neg (by simpa using hm)] at h
    simp only [Except.ok.injEq, Prod.mk.injEq] at h
    obtain ⟨h1, h2⟩ := h
    subst h2
    exact ⟨h1.symm, by omega, fun _ => ⟨rfl, h1.symm⟩⟩
  · rw [if_pos (by simpa using hm)] at h
    split at h
    next e heq => simp at h
    next s1 heq =>
      simp only [Except.ok.injEq, Prod.mk.injEq] at h
      obtain ⟨h1, h2⟩ := h
      subst h2
      have hpos := padLoop_ok_pos S hadv _ _ _ heq
      have hlt : S.pos s % 2 ^ k < 2 ^ k := Nat.mod_lt _ hm0
      refine ⟨h1.symm, ?_, fun hc => absurd hc hm⟩
      rw [hpos, Nat.add_mod]
      rw [Nat.mod_eq_of_lt (show 2 ^ k - S.pos s % 2 ^ k < 2 ^ k by omega)]
      have hsum : S.pos s % 2 ^ k + (2 ^ k - S.pos s % 2 ^ k) = 2 ^ k := by omega
      rw [hsum, Nat.mod_self]

theorem align_error_write (S : Write σ ε) (a : Nat) (s : σ) (e : ε)
    (h : align S s a = .error e) : ∃ s0 n, S.write s0 (zeroes n) = .error e := by
  simp only [align] at h
  by_cases hc : S.pos s &&& (a - 1) ≠ 0
  · rw [if_pos hc] at h
    split at h
    next e0 heq =>
      injection h with h'
      subst h'
      exact padLoop_error_write S _ s _ heq
    next s1 heq => simp at h
  · rw [if_neg hc] at h
    simp at h

theorem align_total (S : Write σ ε) (htot : S.WriteTotal) (a : Nat) (s : σ) :
    ∃ r s', align S s a = .ok (r, s') := by
  simp only [align]
  by_cases hc : S.pos s &&& (a - 1) ≠ 0
  · obtain ⟨s1, h1⟩ := padLoop_total S htot (a - (S.pos s &&& (a - 1))) s
    exact ⟨S.pos s1, s1, by rw [if_pos hc, h1]⟩
  · exact ⟨S.pos s, s, by rw [if_neg hc]⟩

theorem align_traced (S : Write σ ε) (a : Nat) (s : σ) (t0 : List (List Byte))
    (r : Nat) (s' : σ) (t : List (List Byte)) (hpow : ∃ k, a = 2 ^ k)
    (h : align (traced S) (s, t0) a = .ok (r, (s', t))) :
    ∃ u, t = t0 ++ u ∧
      (∀ l ∈ u, ∃ n, l = zeroes n ∧ 1 ≤ n ∧ n ≤ 16) ∧
      u.length ≤ (a - 1 + 15) / 16 ∧
      (S.pos s % a = 0 → s' = s ∧ u = [] ∧ r = S.pos s) := by
  obtain ⟨k, rfl⟩ := hpow
  have hm0 : 0 < 2 ^ k := Nat.two_pow_pos k
  have hpt : (traced S).pos (s, t0) = S.pos s := rfl
  simp only [align, hpt, land_pow2_mod] at h
  by_cases hm : S.pos s % 2 ^ k = 0
  · rw [if_neg (by simpa using hm)] at h
    simp only [Except.ok.injEq, Prod.mk.injEq] at h
    obtain ⟨h1, h2, h3⟩ := h
    subst h2; subst h3
    exact ⟨[], by simp, by simp, by simp, fun _ => ⟨rfl, rfl, h1.symm⟩⟩
  · rw [if_pos (by simpa using hm)] at h
    split at h
    next e heq => simp at h
    next st1 heq =>
      obtain ⟨s1, t1⟩ := st1
      simp only [Except.ok.injEq, Prod.mk.injEq] at h
      obtain ⟨h1, h2, h3⟩ := h
      rw [h2, h3] at heq
      have hlt : S.pos s % 2 ^ k < 2 ^ k := Nat.mod_lt _ hm0
      obtain ⟨u, hu1, hu2, hu3⟩ :=
        padLoop_traced_trace S (2 ^ k - S.pos s % 2 ^ k) s t0 s' t (by omega) heq
      refine ⟨u, hu1, hu3, ?_, fun hc => absurd hc hm⟩
      rw [hu2]
      exact Nat.div_le_div_right (by omega)

theorem getElem?_drop_add (l : List Nat) : ∀ (m i : Nat), (l.drop m)[i]? = l[m + i]? := by
  induction l with
  | nil => intro m i; simp
  | cons a l ih =>
    intro m i
    cases m with
    | zero => simp
    | succ m =>
      rw [List.drop_succ_cons, ih m i]
      have : m + 1 + i = (m + i) + 1 := by omega
      rw [this, List.getElem?_cons_succ]

/-- Claim C2: a `RelPtr` built as `new(P, Q)` with `Q − P` representable in
`i32` and residing at archive position `P` dereferences to archive offset
`Q`: `as_ptr` returns the pointer's own address plus `Q − P` bytes. -/
theorem relptr_as_ptr_correct (P Q : Nat) (base : Int)
    (h1 : -(2 ^ 31) ≤ (Q : Int) - (P : Int)) (h2 : (Q : Int) - (P : Int) < 2 ^ 31) :
    (∀ A : Int, (RelPtr.new P Q).as_ptr A = A + ((Q : Int) - (P : Int))) ∧
    (RelPtr.new P Q).as_ptr (base + (P : Int)) = base + (Q : Int) := by
  have hoff : (RelPtr.new P Q).offset = (Q : Int) - (P : Int) := by
    simp only [RelPtr.new, i32ofInt]
    have hnn : (0 : Int) ≤ (Q : Int) - (P : Int) + 2 ^ 31 := by omega
    have hlt : (Q : Int) - (P : Int) + 2 ^ 31 < 2 ^ 32 := by norm_num; omega
    rw [Int.emod_eq_of_lt hnn hlt]
    omega
  constructor
  · intro A
    simp only [RelPtr.as_ptr, hoff]
  · simp only [RelPtr.as_ptr, hoff]
    omega

/-- Witness for C2 at `P = 4`, `Q = 12`, `base = 100`. -/
theorem relptr_as_ptr_correct_witness :
    (-(2 ^ 31) ≤ ((12 : Nat) : Int) - ((4 : Nat) : Int)) ∧
    (((12 : Nat) : Int) - ((4 : Nat) : Int) < 2 ^ 31) ∧
    ((∀ A : Int, (RelPtr.new 4 12).as_ptr A = A + (((12 : Nat) : Int) - ((4 : Nat) : Int))) ∧
      (RelPtr.new 4 12).as_ptr (100 + ((4 : Nat) : Int)) = 100 + ((12 : Nat) : Int)) :=
  ⟨by norm_num, by norm_num, relptr_as_ptr_correct 4 12 100 (by norm_num) (by norm_num)⟩

/-- Counterexample to C5 as stated: at `from = 0`, `to = 2^31` the
difference `2^31` is not representable in `i32`, yet `RelPtr::new` neither
errors nor panics — it returns a pointer whose stored offset is the
silently truncated value `-2^31`, not `2^31`. -/
theorem relptr_new_no_overflow_check :
    (RelPtr.new 0 (2 ^ 31)).offset = -(2 ^ 31) ∧
    (RelPtr.new 0 (2 ^ 31)).offset ≠ ((2 ^ 31 : Nat) : Int) - ((0 : Nat) : Int) := by
  constructor
  · decide
  · decide

/-- Claim C5 amended: `RelPtr::new(from, to)` stores `to − from` truncated
to `i32` two's-complement with no overflow detection: the stored offset
always lies in `[-2^31, 2^31)` and is congruent to `to − from` modulo
`2^32`, so differences outside `i32` are silently truncated. -/
theorem relptr_new_truncates (src dst : Nat) :
    -(2 ^ 31) ≤ (RelPtr.new src dst).offset ∧
    (RelPtr.new src dst).offset < 2 ^ 31 ∧
    ((RelPtr.new src dst).offset - ((dst : Int) - (src : Int))) % 2 ^ 32 = 0 := by
  simp only [RelPtr.new, i32ofInt]
  norm_num
  omega

/-- Claim C7: the blanket archive-by-reference implementation archives the
value and returns the resulting position as the resolver — it returns
exactly what `archive` returns — and resolving that `usize` resolver at
header position `hpos` yields `RelPtr::new(hpos, stored)`, independent of
the value argument. -/
theorem archive_ref_blanket (S : Write σ ε) (A : ArchType σ ε T Ar R)
    (v v2 : T) (s : σ) (stored hpos : Nat) :
    archive_ref_stage1 S A v s = archive S A v s ∧
    usizeResolve stored hpos v = RelPtr.new hpos stored ∧
    usizeResolve stored hpos v = usizeResolve stored hpos v2 := by
  refine ⟨?_, rfl, rfl⟩
  unfold archive_ref_stage1
  cases archive S A v s with
  | error e => rfl
  | ok p => cases p with | mk a b => rfl

/-- Claim C8: the self-resolver returns a copy of the original value and
ignores the position argument. -/
theorem selfresolver_resolve_id (p1 p2 : Nat) (v : T) :
    SelfResolver.resolve p1 v = v ∧ SelfResolver.resolve p2 v = v ∧
    SelfResolver.resolve p1 v = SelfResolver.resolve p2 v :=
  ⟨rfl, rfl, rfl⟩

/-- Claim C10: a zero-length write on the buffer sink succeeds and changes
nothing, also when the position sits exactly at the capacity — the check
`pos + 0 > capacity` does not fire at the boundary. -/
theorem buffer_write_empty (b : ArchiveBuffer) (h : b.pos ≤ b.inner.length) :
    b.write [] = (.ok (), b) := by
  cases b with
  | mk inner bpos =>
    simp only [ArchiveBuffer.write, List.length_nil, Nat.add_zero] at h ⊢
    rw [if_neg (by simp at h ⊢; omega)]
    simp

/-- Witness for C10 with the position exactly at the capacity. -/
theorem buffer_write_empty_witness :
    (ArchiveBuffer.mk [3, 4] 2).pos ≤ (ArchiveBuffer.mk [3, 4] 2).inner.length ∧
    (ArchiveBuffer.mk [3, 4] 2).write [] = (.ok (), ArchiveBuffer.mk [3, 4] 2) :=
  ⟨by decide, buffer_write_empty (ArchiveBuffer.mk [3, 4] 2) (by decide)⟩

/-- Claim C3: `ArchiveBuffer::write` is overflow-checked and atomic: when
`pos + len` exceeds the capacity it returns the overflow error with the
buffer contents and position untouched; otherwise it succeeds, copies the
slice to `inner[pos..pos+len]`, leaves every other byte unchanged, and
advances the position to `pos + len`. -/
theorem buffer_write_atomic (b : ArchiveBuffer) (bytes : List Byte) :
    (b.pos + bytes.length > b.inner.length →
      b.write bytes = (.error ArchiveBufferError.Overflow, b)) ∧
    (b.pos + bytes.length ≤ b.inner.length →
      (b.write bytes).1 = .ok () ∧
      (b.write bytes).2.pos = b.pos + bytes.length ∧
      (b.write bytes).2.inner.length = b.inner.length ∧
      (∀ i, i < bytes.length → (b.write bytes).2.inner[b.pos + i]? = bytes[i]?) ∧
      (∀ i, i < b.pos → (b.write bytes).2.inner[i]? = b.inner[i]?) ∧
      (∀ i, b.pos + bytes.length ≤ i → (b.write bytes).2.inner[i]? = b.inner[i]?)) := by
  constructor
  · intro hov
    simp only [ArchiveBuffer.write]
    rw [if_pos hov]
  · intro hle
    have hw : b.write bytes =
        (.ok (), ⟨b.inner.take b.pos ++ bytes ++ b.inner.drop (b.pos + bytes.length),
          b.pos + bytes.length⟩) := by
      simp only [ArchiveBuffer.write]
      rw [if_neg (by omega)]
    have htl : (b.inner.take b.pos).length = b.pos := by
      rw [List.length_take]
      omega
    refine ⟨by rw [hw], by rw [hw], ?_, ?_, ?_, ?_⟩
    · rw [hw]
      simp only [List.length_append, List.length_take, List.length_drop]
      omega
    · intro i hi
      rw [hw]
      simp only [List.append_assoc]
      rw [List.getElem?_append_right (by omega)]
      rw [htl]
      have : b.pos + i - b.pos = i := by omega
      rw [this, List.getElem?_append_left hi]
    · intro i hi
      rw [hw]
      simp only [List.append_assoc]
      rw [List.getElem?_append_left (by omega)]
      rw [List.getElem?_take_of_lt hi]
    · intro i hi
      rw [hw]
      simp only [List.append_assoc]
      rw [List.getElem?_append_right (by omega)]
      rw [htl]
      rw [List.getElem?_append_right (by omega)]
      rw [getElem?_drop_add]
      congr 1
      omega

/-- Witness for C3: a 1-byte write into a 3-byte buffer at position 1. -/
theorem buffer_write_atomic_witness :
    ((ArchiveBuffer.mk [9, 9, 9] 1).pos + [5].length ≤
      (ArchiveBuffer.mk [9, 9, 9] 1).inner.length) ∧
    ((ArchiveBuffer.mk [9, 9, 9] 1).write [5]).1 = .ok () ∧
    ((ArchiveBuffer.mk [9, 9, 9] 1).write [5]).2.pos =
      (ArchiveBuffer.mk [9, 9, 9] 1).pos + [5].length :=
  ⟨by decide,
    ((buffer_write_atomic (ArchiveBuffer.mk [9, 9, 9] 1) [5]).2 (by decide)).1,
    ((buffer_write_atomic (ArchiveBuffer.mk [9, 9, 9] 1) [5]).2 (by decide)).2.1⟩

/-- Claim C4: for every sink satisfying the write contract and every
power-of-two alignment `a`, a successful `align(a)` returns the
post-alignment position, leaves the position a multiple of `a`, emits only
zero bytes as padding, and emits nothing at all when the position is
already a multiple of `a`. -/
theorem align_spec (S : Write σ ε) (a : Nat) (s : σ) (r : Nat) (s' : σ)
    (t : List (List Byte)) (hadv : S.WriteAdvances) (hpow : ∃ k, a = 2 ^ k)
    (h : align (traced S) (s, []) a = .ok (r, (s', t))) :
    r = S.pos s' ∧ S.pos s' % a = 0 ∧
    (∀ l ∈ t, ∀ x ∈ l, x = 0) ∧
    (S.pos s % a = 0 → s' = s ∧ t = [] ∧ r = S.pos s) := by
  have hok := align_ok (traced S) a (s, []) r (s', t) (traced_advances S hadv) hpow h
  obtain ⟨u, hu1, hu2, hu3, hu4⟩ := align_traced S a s [] r s' t hpow h
  simp only [List.nil_append] at hu1
  subst hu1
  refine ⟨hok.1, hok.2.1, ?_, ?_⟩
  · intro l hl x hx
    obtain ⟨n, hn, h1, h2⟩ := hu2 l hl
    subst hn
    simp only [zeroes] at hx
    exact (List.eq_of_mem_replicate hx)
  · intro hm
    have h3 := hok.2.2 hm
    obtain ⟨heq, hr⟩ := h3
    have h5 : s' = s := congrArg Prod.fst heq
    have h6 : t = [] := congrArg Prod.snd heq
    exact ⟨h5, h6, hr⟩

/-- Witness for C4 with the list sink at an already 4-aligned position. -/
theorem align_spec_witness :
    listSink.WriteAdvances ∧ (∃ k, (4 : Nat) = 2 ^ k) ∧
    align (traced listSink) (([] : List Byte), ([] : List (List Byte))) 4 =
      .ok (0, (([] : List Byte), ([] : List (List Byte)))) ∧
    (0 = listSink.pos ([] : List Byte) ∧
      listSink.pos ([] : List Byte) % 4 = 0 ∧
      (∀ l ∈ ([] : List (List Byte)), ∀ x ∈ l, x = 0) ∧
      (listSink.pos ([] : List Byte) % 4 = 0 →
        ([] : List Byte) = [] ∧ ([] : List (List Byte)) = [] ∧
          0 = listSink.pos ([] : List Byte))) :=
  ⟨listSink_advances, ⟨2, rfl⟩, rfl,
    align_spec listSink 4 [] 0 [] [] listSink_advances ⟨2, rfl⟩ rfl⟩

/-- Claim C9: the padding loop of `align` terminates: with a sink whose
writes succeed, `align(a)` for power-of-two `a` completes, issuing at most
`⌈(a−1)/16⌉` write calls, each of between 1 and 16 bytes. -/
theorem align_write_count (S : Write σ ε) (a : Nat) (s : σ)
    (htot : S.WriteTotal) (hpow : ∃ k, a = 2 ^ k) :
    ∃ r s' t, align (traced S) (s, []) a = .ok (r, (s', t)) ∧
      t.length ≤ (a - 1 + 15) / 16 ∧
      ∀ l ∈ t, 1 ≤ l.length ∧ l.length ≤ 16 := by
  obtain ⟨r, st', hok⟩ := align_total (traced S) (traced_total S htot) a (s, [])
  obtain ⟨s', t⟩ := st'
  obtain ⟨u, hu1, hu2, hu3, hu4⟩ := align_traced S a s [] r s' t hpow hok
  simp only [List.nil_append] at hu1
  refine ⟨r, s', t, hok, ?_, ?_⟩
  · rw [hu1]
    exact hu3
  · intro l hl
    rw [hu1] at hl
    obtain ⟨n, hn, h1, h2⟩ := hu2 l hl
    subst hn
    simp only [zeroes_length]
    exact ⟨h1, h2⟩

/-- Witness for C9 with the always-accepting list sink and `a = 4`. -/
theorem align_write_count_witness :
    listSink.WriteTotal ∧ (∃ k, (4 : Nat) = 2 ^ k) ∧
    (∃ r s' t, align (traced listSink) (([] : List Byte), ([] : List (List Byte))) 4 =
        .ok (r, (s', t)) ∧
      t.length ≤ (4 - 1 + 15) / 16 ∧
      ∀ l ∈ t, 1 ≤ l.length ∧ l.length ≤ 16) :=
  ⟨listSink_total, ⟨2, rfl⟩, align_write_count listSink 4 [] listSink_total ⟨2, rfl⟩⟩

/-- Claim C6 amended: a successful buffer-sink write advances the position
by exactly the slice length; a successful streaming-sink write advances it
by the number of bytes the underlying stream reports as accepted (which
equals the slice length only when the stream accepts it fully); on a failed
write either sink's position is unchanged, and in every case the position
never decreases. -/
theorem write_position_monotone (b : ArchiveBuffer) (bytes : List Byte)
    (W : ByteStream σw ε) (w : ArchiveWriter σw) :
    (∀ b', b.write bytes = (.ok (), b') → b'.pos = b.pos + bytes.length) ∧
    (∀ e b', b.write bytes = (.error e, b') → b' = b) ∧
    (∀ q b', b.write bytes = (q, b') → b.pos ≤ b'.pos) ∧
    (∀ n inner', W.write w.inner bytes = (.ok n, inner') →
      ArchiveWriter.write W w bytes = (.ok (), ⟨inner', w.pos + n⟩)) ∧
    (∀ e inner', W.write w.inner bytes = (.error e, inner') →
      ArchiveWriter.write W w bytes = (.error e, ⟨inner', w.pos⟩)) ∧
    w.pos ≤ (ArchiveWriter.write W w bytes).2.pos := by
  refine ⟨?_, ?_, ?_, ?_, ?_, ?_⟩
  · intro b' hww
    simp only [ArchiveBuffer.write] at hww
    split at hww
    · simp at hww
    · simp only [Prod.mk.injEq] at hww
      rw [← hww.2]
  · intro e b' hww
    simp only [ArchiveBuffer.write] at hww
    split at hww
    · exact (Prod.mk.injEq .. ▸ hww).2.symm
    · simp at hww
  · intro q b' hww
    simp only [ArchiveBuffer.write] at hww
    split at hww
    · have h2 : b = b' := congrArg Prod.snd hww
      rw [← h2]
    · have h2 : ArchiveBuffer.mk
          (b.inner.take b.pos ++ bytes ++ b.inner.drop (b.pos + bytes.length))
          (b.pos + bytes.length) = b' := congrArg Prod.snd hww
      rw [← h2]
      exact Nat.le_add_right b.pos bytes.length
  · intro n inner' hww
    simp only [ArchiveWriter.write, hww]
  · intro e inner' hww
    simp only [ArchiveWriter.write, hww]
  · simp only [ArchiveWriter.write]
    cases hww : W.write w.inner bytes with
    | mk q inner' =>
      cases q with
      | error e => exact Nat.le_refl w.pos
      | ok n => exact Nat.le_add_right w.pos n

/-- Counterexample to C6 as stated: over a legal `io::Write` stream that
accepts one byte per call, a successful `ArchiveWriter` write of a 2-byte
slice advances the position by 1, not by the slice's length. -/
theorem writer_short_write_counterexample :
    (ArchiveWriter.write shortStream ⟨(), 0⟩ [0, 0]).1 = .ok () ∧
    (ArchiveWriter.write shortStream ⟨(), 0⟩ [0, 0]).2.pos = 1 ∧
    (ArchiveWriter.write shortStream ⟨(), 0⟩ [0, 0]).2.pos ≠
      0 + ([0, 0] : List Byte).length :=
  ⟨rfl, rfl, by decide⟩

/-- Witness for C6 (amended) on a concrete buffer write and a concrete
stream write. -/
theorem write_position_monotone_witness :
    ArchiveBuffer.write ⟨[0, 0], 0⟩ [5] = (.ok (), ⟨[5, 0], 1⟩) ∧
    (ArchiveBuffer.mk [5, 0] 1).pos = (ArchiveBuffer.mk [0, 0] 0).pos + [5].length ∧
    (ArchiveWriter.mk () 0).pos ≤ (ArchiveWriter.write fullStream ⟨(), 0⟩ [5]).2.pos :=
  ⟨rfl,
    (write_position_monotone ⟨[0, 0], 0⟩ [5] fullStream ⟨(), 0⟩).1 ⟨[5, 0], 1⟩ rfl,
    (write_position_monotone ⟨[0, 0], 0⟩ [5] fullStream ⟨(), 0⟩).2.2.2.2.2⟩

/-- Claim C1: once stage 1 has produced a resolver, a successful top-level
`archive` returns a header position that is a multiple of the archived
type's alignment; the resolver is applied as a pure function and stage 2
consists of exactly one further write, of the header's
`sizeof(Archived)` bytes at the returned position, so the final position
equals the returned position plus `sizeof(Archived)`; and the call fails
exactly when an underlying write (a zero-padding write inside `align`, or
the header emission) fails. -/
theorem archive_spec (S : Write σ ε) (A : ArchType σ ε T Ar R) (v : T)
    (s s1 : σ) (r : R) (hadv : S.WriteAdvances) (hpow : ∃ k, A.alignOf = 2 ^ k)
    (hsize : ∀ x, (A.toBytes x).length = A.sizeOf)
    (h1 : A.archiveStage1 v s = .ok (r, s1)) :
    (∀ p s', archive S A v s = .ok (p, s') →
      p % A.alignOf = 0 ∧
      S.pos s' = p + A.sizeOf ∧
      ∃ s2, align S s1 A.alignOf = .ok (p, s2) ∧ S.pos s2 = p ∧
        S.write s2 (A.toBytes (A.resolve r p v)) = .ok s') ∧
    (∀ e, archive S A v s = .error e ↔
      (align S s1 A.alignOf = .error e ∨
        ∃ p s2, align S s1 A.alignOf = .ok (p, s2) ∧
          S.write s2 (A.toBytes (A.resolve r p v)) = .error e)) ∧
    (∀ e, align S s1 A.alignOf = .error e →
      ∃ s0 n, S.write s0 (zeroes n) = .error e) := by
  have harch : archive S A v s =
      match align S s1 A.alignOf with
      | .error e => .error e
      | .ok (_, s2) => resolve_aligned S A v r s2 := by
    simp only [archive, h1]
  refine ⟨?_, ?_, fun e he => align_error_write S A.alignOf s1 e he⟩
  · intro p s' hrun
    rw [harch] at hrun
    cases hal : align S s1 A.alignOf with
    | error e => rw [hal] at hrun; simp at hrun
    | ok ps2 =>
      obtain ⟨p0, s2⟩ := ps2
      rw [hal] at hrun
      have hok := align_ok S A.alignOf s1 p0 s2 hadv hpow hal
      simp only [resolve_aligned] at hrun
      split at hrun
      next e heq => simp at hrun
      next s3 heq =>
        simp only [Except.ok.injEq, Prod.mk.injEq] at hrun
        obtain ⟨hp, hs⟩ := hrun
        have hw := hadv s2 (A.toBytes (A.resolve r (S.pos s2) v)) s3 heq
        rw [hsize] at hw
        refine ⟨?_, ?_, s2, ?_, hp, ?_⟩
        · rw [← hp]
          exact hok.2.1
        · rw [← hs, ← hp]
          exact hw
        · rw [← hp, ← hok.1]
        · rw [← hp, ← hs]
          exact heq
  · intro e
    rw [harch]
    cases hal : align S s1 A.alignOf with
    | error e0 =>
      simp
    | ok ps2 =>
      obtain ⟨p0, s2⟩ := ps2
      have hok := align_ok S A.alignOf s1 p0 s2 hadv hpow hal
      rw [hok.1]
      simp only [resolve_aligned]
      cases hw : S.write s2 (A.toBytes (A.resolve r (S.pos s2) v)) with
      | error e0 =>
        constructor
        · intro he
          refine Or.inr ⟨S.pos s2, s2, rfl, ?_⟩
          rw [hw]
          simpa using he
        · intro he
          rcases he with he | ⟨p, s2', he1, he2⟩
          · simp at he
          · simp only [Except.ok.injEq, Prod.mk.injEq] at he1
            rw [← he1.1, ← he1.2, hw] at he2
            simpa using he2
      | ok s3 => simp [hw]

/-- Witness for C1 with the always-accepting list sink and the concrete
`unitArch` instantiation (alignment 1, header bytes `[7, 7]`). -/
theorem archive_spec_witness :
    listSink.WriteAdvances ∧ (∃ k, unitArch.alignOf = 2 ^ k) ∧
    (∀ x, (unitArch.toBytes x).length = unitArch.sizeOf) ∧
    unitArch.archiveStage1 () [] = .ok ((), []) ∧
    ((∀ p s', archive listSink unitArch () [] = .ok (p, s') →
        p % unitArch.alignOf = 0 ∧
        listSink.pos s' = p + unitArch.sizeOf ∧
        ∃ s2, align listSink [] unitArch.alignOf = .ok (p, s2) ∧
          listSink.pos s2 = p ∧
          listSink.write s2 (unitArch.toBytes (unitArch.resolve () p ())) = .ok s') ∧
      (∀ e, archive listSink unitArch () [] = .error e ↔
        (align listSink [] unitArch.alignOf = .error e ∨
          ∃ p s2, align listSink [] unitArch.alignOf = .ok (p, s2) ∧
            listSink.write s2 (unitArch.toBytes (unitArch.resolve () p ())) = .error e)) ∧
      (∀ e, align listSink [] unitArch.alignOf = .error e →
        ∃ s0 n, listSink.write s0 (zeroes n) = .error e)) :=
  ⟨listSink_advances, ⟨0, rfl⟩, fun _ => rfl, rfl,
    archive_spec listSink unitArch () [] [] () listSink_advances ⟨0, rfl⟩
      (fun _ => rfl) rfl⟩
